import Mathlib

/-!
Shallow embedding of `src/example_policies/data_ops/delete_blacklisted_episodes.py`:
an episode-store compaction engine that copies a dataset, deletes the episodes
listed in the persisted blacklist, renumbers the survivors to a dense range and
rewrites the metadata tables.

The `MetaManager` aggregate (blacklist, episode list, per-episode statistics,
episode mapping, info record) is not among the given sources; its state shape is
reconstructed from its use in `delete_blacklisted_episodes.py` and from the
design document (§4.1).  Its `load_from_files`/`save` calls are modelled as
events (`Ev.load`, `Ev.save`) over an explicit state value, and `copytree` as
`Ev.copy` duplicating the dataset value.

Filesystem state is the set of episode shard files and media directories,
identified by episode index (the path scheme `episode_{idx:06d}` is a bijection
of the index, so the index stands for the path).  A rename is modelled as
failing with `RunError.renameCollision` when its target path is occupied, so
that success of the rename pass expresses the "renames never collide" property.
Python `dict`s are modelled as association lists with first-match lookup and
overwrite-or-append assignment, preserving insertion order as `dict` does.
A Python `KeyError` (possible in the statistics remapping loop) is modelled as
`RunError.keyError`.
-/

/-- One record of the `meta_manager.episodes` list: `episode_index`, `length`,
plus an opaque stand-in `data` for the rest of the record. -/
structure Episode where
  episode_index : Nat
  length : Nat
  data : Nat
deriving DecidableEq

/-- One record of the `meta_manager.stats` list: `episode_index` plus an opaque
stand-in `data` for the remaining statistics fields. -/
structure Stat where
  episode_index : Nat
  data : Nat
deriving DecidableEq

/-- The `meta_manager.info` record: `total_episodes`, `total_frames` and the
`splits["train"]` bound. -/
structure Info where
  total_episodes : Nat
  total_frames : Nat
  splits_train : String
deriving DecidableEq

/-- The `MetaManager` state aggregate, as used by the compaction script:
blacklist, episode list, per-episode statistics, episode mapping (string keys),
optional info record.  Mapping values are opaque, modelled as `Nat`. -/
structure MetaState where
  blacklist : List Nat
  episodes : List Episode
  stats : List Stat
  episode_mapping : List (String × Nat)
  info : Option Info
deriving DecidableEq

/-- Filesystem state of one dataset directory: which episode indices have a
parquet shard file (`episode_dir/episode_{i:06d}.parquet`) and which have a
media directory (`video_dir/episode_{i:06d}`). -/
structure FS where
  files : List Nat
  dirs : List Nat
deriving DecidableEq

/-- A dataset directory: its filesystem artifacts and its on-disk metadata. -/
structure Dataset where
  fs : FS
  meta : MetaState
deriving DecidableEq

/-- Observable events of one run, in order of occurrence. -/
inductive Ev where
  | load : Ev
  | copy : Ev
  | delFile : Nat → Ev
  | delDir : Nat → Ev
  | renFile : Nat → Nat → Ev
  | renDir : Nat → Nat → Ev
  | save : Ev
deriving DecidableEq

/-- Errors a run can surface. -/
inductive RunError where
  | datasetNotFound : RunError
  | outputExists : RunError
  | renameCollision : RunError
  | keyError : RunError
deriving DecidableEq

/-- Result of one invocation of `delete_blacklisted_episodes`: the error (if
any), the event trace, the produced output dataset (if a copy was made; `none`
on dry runs, missing-source errors and rename collisions), the metadata passed
to `MetaManager.save` (if saved) and the run's `deleted_episodes` list. -/
structure Outcome where
  error : Option RunError
  events : List Ev
  outDs : Option Dataset
  saved : Option MetaState
  deleted : List Nat
deriving DecidableEq

/-- First-match lookup in a Python dict modelled as an association list. -/
def dictGet? {κ α : Type} [DecidableEq κ] (k : κ) : List (κ × α) → Option α
  | [] => none
  | (k', v) :: rest => if k' = k then some v else dictGet? k rest

/-- Python dict assignment `d[k] = v`: overwrite in place, else append. -/
def dictInsert {κ α : Type} [DecidableEq κ] (k : κ) (v : α) :
    List (κ × α) → List (κ × α)
  | [] => [(k, v)]
  | (k', v') :: rest =>
    if k' = k then (k, v) :: rest else (k', v') :: dictInsert k v rest

/-- Stable insertion of an episode into a list sorted by `episode_index`. -/
def insertByIdx (e : Episode) : List Episode → List Episode
  | [] => [e]
  | f :: rest =>
    if e.episode_index ≤ f.episode_index then e :: f :: rest
    else f :: insertByIdx e rest

/-- Stable sort by `episode_index`, modelling
`remaining_episodes.sort(key=lambda x: x["episode_index"])`. -/
def sortByIdx : List Episode → List Episode
  | [] => []
  | e :: rest => insertByIdx e (sortByIdx rest)

/-- Lines 118-123: the episodes whose `episode_index` is not in
`deleted_episodes`, in load order, then sorted by episode index. -/
def remainingEpisodes (m : MetaState) (deleted : List Nat) : List Episode :=
  sortByIdx (m.episodes.filter (fun e => decide (e.episode_index ∉ deleted)))

/-- Lines 126-129: build `old_to_new_mapping` by enumerating the remaining
episodes, as a dict keyed by the old index. -/
def buildOldToNew (k : Nat) (acc : List (Nat × Nat)) :
    List Episode → List (Nat × Nat)
  | [] => acc
  | e :: rest => buildOldToNew (k + 1) (dictInsert e.episode_index k acc) rest

/-- The `old_to_new_mapping` dict of `_renumber_episodes_and_update_metadata`. -/
def oldToNewMapping (remaining : List Episode) : List (Nat × Nat) :=
  buildOldToNew 0 [] remaining

/-- Lines 150-154: overwrite each remaining episode's `episode_index` with its
image under `old_to_new_mapping` (a missing key would be a `KeyError`). -/
def mapEpisodes (otn : List (Nat × Nat)) :
    List Episode → Except RunError (List Episode)
  | [] => .ok []
  | e :: rest => do
    let n ← match dictGet? e.episode_index otn with
      | some n => Except.ok n
      | none => Except.error RunError.keyError
    let rest' ← mapEpisodes otn rest
    .ok ({ e with episode_index := n } :: rest')

/-- Lines 150-159: build `new_episode_mapping`: for each remaining episode
whose old index (stringified) has an entry in the old mapping, store that value
under the stringified new index.  A failed `old_to_new_mapping` lookup is
skipped here because `mapEpisodes` already surfaces it as the run's error. -/
def buildNewMapping (otn : List (Nat × Nat)) (oldMap : List (String × Nat))
    (acc : List (String × Nat)) : List Episode → List (String × Nat)
  | [] => acc
  | e :: rest =>
    let acc' := match dictGet? e.episode_index otn,
        dictGet? (Nat.repr e.episode_index) oldMap with
      | some n, some v => dictInsert (Nat.repr n) v acc
      | _, _ => acc
    buildNewMapping otn oldMap acc' rest

/-- Lines 161-165: remap the `episode_index` of every statistics record not in
`deleted_episodes`; a record outside both `deleted_episodes` and the mapping
raises `KeyError`. -/
def mapStats (otn : List (Nat × Nat)) (deleted : List Nat) :
    List Stat → Except RunError (List Stat)
  | [] => .ok []
  | s :: rest => do
    let s' ←
      if s.episode_index ∈ deleted then Except.ok s
      else match dictGet? s.episode_index otn with
        | some n => Except.ok { s with episode_index := n }
        | none => Except.error RunError.keyError
    let rest' ← mapStats otn deleted rest
    .ok (s' :: rest')

/-- Lines 176-184: recompute the info totals from the (renumbered) remaining
episodes; the train split bound is rewritten only when `total_episodes > 0`. -/
def updateInfo (info : Option Info) (remaining : List Episode) : Option Info :=
  match info with
  | none => none
  | some i =>
    let te := remaining.length
    let tf := (remaining.map Episode.length).sum
    some { total_episodes := te, total_frames := tf,
           splits_train := if 0 < te then "0:" ++ Nat.repr te else i.splits_train }

/-- Metadata part of `_renumber_episodes_and_update_metadata` (lines 117-187,
without the filesystem renames): new episode list, new mapping, remapped and
filtered statistics, recomputed info, cleared blacklist. -/
def renumberMeta (m : MetaState) (deleted : List Nat) :
    Except RunError MetaState := do
  let remaining := remainingEpisodes m deleted
  let otn := oldToNewMapping remaining
  let newEpisodes ← mapEpisodes otn remaining
  let newMapping := buildNewMapping otn m.episode_mapping [] remaining
  let statsMapped ← mapStats otn deleted m.stats
  let statsFiltered :=
    statsMapped.filter (fun s => decide (s.episode_index < remaining.length))
  .ok { blacklist := [],
        episodes := newEpisodes,
        stats := statsFiltered,
        episode_mapping := newMapping,
        info := updateInfo m.info newEpisodes }

/-- Lines 136-140: rename the shard file of `old` to slot `new` if it exists;
fails if the target path is occupied (collision). -/
def renameFile (fs : FS) (old new : Nat) : List Ev × Except RunError FS :=
  if old ∈ fs.files then
    if new ∈ fs.files then ([], .error RunError.renameCollision)
    else ([Ev.renFile old new],
          .ok { fs with files := fs.files.erase old ++ [new] })
  else ([], .ok fs)

/-- Lines 143-147: rename the media directory of `old` to slot `new` if it
exists; fails if the target path is occupied (collision). -/
def renameDir (fs : FS) (old new : Nat) : List Ev × Except RunError FS :=
  if old ∈ fs.dirs then
    if new ∈ fs.dirs then ([], .error RunError.renameCollision)
    else ([Ev.renDir old new],
          .ok { fs with dirs := fs.dirs.erase old ++ [new] })
  else ([], .ok fs)

/-- One iteration of the rename loop body (shard file, then media dir). -/
def renameStep (fs : FS) (old new : Nat) : List Ev × Except RunError FS :=
  let (ev1, r1) := renameFile fs old new
  match r1 with
  | .error e => (ev1, .error e)
  | .ok fs1 =>
    let (ev2, r2) := renameDir fs1 old new
    (ev1 ++ ev2, r2)

/-- Lines 131-147: iterate `old_to_new_mapping.items()` in insertion order,
renaming where `old_idx != new_idx`. -/
def renamePass (fs : FS) : List (Nat × Nat) → List Ev × Except RunError FS
  | [] => ([], .ok fs)
  | (o, n) :: rest =>
    if o = n then renamePass fs rest
    else
      let (ev1, r1) := renameStep fs o n
      match r1 with
      | .error e => (ev1, .error e)
      | .ok fs1 =>
        let (ev2, r2) := renamePass fs1 rest
        (ev1 ++ ev2, r2)

/-- Lines 64-95 in live mode: iterate the blacklist, deleting each episode's
shard file and media directory when present, and collect `deleted_episodes`
(the indices for which at least one artifact existed). -/
def deletePhase (fs : FS) : List Nat → FS × List Nat × List Ev
  | [] => (fs, [], [])
  | i :: rest =>
    let hasF := i ∈ fs.files
    let hasD := i ∈ fs.dirs
    if hasF ∨ hasD then
      let fs' : FS := { files := if hasF then fs.files.erase i else fs.files,
                        dirs := if hasD then fs.dirs.erase i else fs.dirs }
      let r := deletePhase fs' rest
      (r.1, i :: r.2.1,
       (if hasF then [Ev.delFile i] else [])
         ++ (if hasD then [Ev.delDir i] else []) ++ r.2.2)
    else deletePhase fs rest

/-- Lines 53-101 for a live run with a non-empty blacklist: copy the dataset,
delete blacklisted artifacts, and — when `deleted_episodes` is non-empty —
rename survivors and rewrite the metadata. -/
def liveRun (ds : Dataset) : Outcome :=
  let dp := deletePhase ds.fs ds.meta.blacklist
  if dp.2.1 = [] then
    { error := none, events := [Ev.load, Ev.copy] ++ dp.2.2,
      outDs := some { fs := dp.1, meta := ds.meta }, saved := none,
      deleted := dp.2.1 }
  else
    let otn := oldToNewMapping (remainingEpisodes ds.meta dp.2.1)
    let rp := renamePass dp.1 otn
    match rp.2 with
    | .error e =>
      { error := some e, events := [Ev.load, Ev.copy] ++ dp.2.2 ++ rp.1,
        outDs := none, saved := none, deleted := dp.2.1 }
    | .ok fs2 =>
      match renumberMeta ds.meta dp.2.1 with
      | .error e =>
        { error := some e, events := [Ev.load, Ev.copy] ++ dp.2.2 ++ rp.1,
          outDs := some { fs := fs2, meta := ds.meta }, saved := none,
          deleted := dp.2.1 }
      | .ok m' =>
        { error := none,
          events := [Ev.load, Ev.copy] ++ dp.2.2 ++ rp.1 ++ [Ev.save],
          outDs := some { fs := fs2, meta := m' }, saved := some m',
          deleted := dp.2.1 }

/-- Lines 39-107 after the two existence checks: load the metadata, then
branch on the blacklist and the dry-run flag.  Dry runs only read state. -/
def runChecked (ds : Dataset) (dryRun : Bool) : Outcome :=
  if ds.meta.blacklist = [] then
    if dryRun then
      { error := none, events := [Ev.load], outDs := none, saved := none,
        deleted := [] }
    else
      { error := none, events := [Ev.load, Ev.copy], outDs := some ds,
        saved := none, deleted := [] }
  else if dryRun then
    { error := none, events := [Ev.load], outDs := none, saved := none,
      deleted := [] }
  else liveRun ds

/-- `delete_blacklisted_episodes(dataset_path, output_path, dry_run)`:
existence of the two paths is abstracted into the two boolean arguments
(line 33 raises `FileNotFoundError`, line 36 raises `FileExistsError`). -/
def run (datasetExists outputExists : Bool) (ds : Dataset) (dryRun : Bool) :
    Outcome :=
  if datasetExists = false then
    { error := some RunError.datasetNotFound, events := [], outDs := none,
      saved := none, deleted := [] }
  else if outputExists then
    { error := some RunError.outputExists, events := [], outDs := none,
      saved := none, deleted := [] }
  else runChecked ds dryRun

/-- Event classifiers used to state the deletions-before-renames property. -/
def Ev.isRename : Ev → Bool
  | Ev.renFile _ _ => true
  | Ev.renDir _ _ => true
  | _ => false

/-- True exactly on deletion events. -/
def Ev.isDelete : Ev → Bool
  | Ev.delFile _ => true
  | Ev.delDir _ => true
  | _ => false

/-! Helper lemmas about the stable sort. -/

lemma perm_insertByIdx (e : Episode) (l : List Episode) :
    (insertByIdx e l).Perm (e :: l) := by
  induction l with
  | nil => simp [insertByIdx]
  | cons f rest ih =>
    by_cases h : e.episode_index ≤ f.episode_index
    · simp [insertByIdx, h]
    · simp only [insertByIdx, if_neg h]
      exact (ih.cons f).trans (List.Perm.swap e f rest)

lemma perm_sortByIdx (l : List Episode) : (sortByIdx l).Perm l := by
  induction l with
  | nil => simp [sortByIdx]
  | cons e rest ih =>
    exact (perm_insertByIdx e (sortByIdx rest)).trans (ih.cons e)

lemma sorted_insertByIdx (e : Episode) (l : List Episode)
    (h : l.Pairwise (fun a b => a.episode_index ≤ b.episode_index)) :
    (insertByIdx e l).Pairwise (fun a b => a.episode_index ≤ b.episode_index) := by
  induction l with
  | nil => simp [insertByIdx]
  | cons f rest ih =>
    rw [List.pairwise_cons] at h
    obtain ⟨hf, hrest⟩ := h
    by_cases hle : e.episode_index ≤ f.episode_index
    · simp only [insertByIdx, if_pos hle]
      rw [List.pairwise_cons]
      refine ⟨?_, ?_⟩
      · intro b hb
        rcases List.mem_cons.mp hb with rfl | hb
        · exact hle
        · exact Nat.le_trans hle (hf b hb)
      · rw [List.pairwise_cons]
        exact ⟨hf, hrest⟩
    · simp only [insertByIdx, if_neg hle]
      rw [List.pairwise_cons]
      refine ⟨?_, ih hrest⟩
      intro b hb
      rcases List.mem_cons.mp ((perm_insertByIdx e rest).mem_iff.mp hb) with rfl | h
      · exact Nat.le_of_lt (Nat.lt_of_not_le hle)
      · exact hf b h

lemma sorted_sortByIdx (l : List Episode) :
    (sortByIdx l).Pairwise (fun a b => a.episode_index ≤ b.episode_index) := by
  induction l with
  | nil => simp [sortByIdx]
  | cons e rest ih => exact sorted_insertByIdx e (sortByIdx rest) ih

lemma remaining_map_nodup (m : MetaState) (del : List Nat)
    (hnd : (m.episodes.map Episode.episode_index).Nodup) :
    ((remainingEpisodes m del).map Episode.episode_index).Nodup := by
  have hsub :=
    (List.filter_sublist (p := fun e => decide (e.episode_index ∉ del))
      m.episodes).map Episode.episode_index
  have h1 := List.Nodup.sublist hsub hnd
  have hperm :=
    (perm_sortByIdx (m.episodes.filter
      (fun e => decide (e.episode_index ∉ del)))).map Episode.episode_index
  exact (List.Perm.nodup_iff hperm).mpr h1

lemma remaining_pairwise_lt (m : MetaState) (del : List Nat)
    (hnd : (m.episodes.map Episode.episode_index).Nodup) :
    ((remainingEpisodes m del).map Episode.episode_index).Pairwise (· < ·) := by
  have h2 : ((remainingEpisodes m del).map Episode.episode_index).Pairwise (· ≤ ·) := by
    rw [List.pairwise_map]
    exact sorted_sortByIdx _
  have h3 : ((remainingEpisodes m del).map Episode.episode_index).Pairwise (· ≠ ·) :=
    remaining_map_nodup m del hnd
  exact (h2.and h3).imp (fun h => Nat.lt_of_le_of_ne h.1 h.2)

/-! Helper lemmas about the dict model. -/

lemma mem_dictInsert {κ α : Type} [DecidableEq κ] (k : κ) (v : α)
    (l : List (κ × α)) (kv : κ × α) (h : kv ∈ dictInsert k v l) :
    kv = (k, v) ∨ kv ∈ l := by
  induction l with
  | nil => simpa [dictInsert] using h
  | cons p rest ih =>
    obtain ⟨k', v'⟩ := p
    by_cases hk : k' = k
    · simp only [dictInsert, if_pos hk] at h
      rcases List.mem_cons.mp h with h | h
      · exact Or.inl h
      · exact Or.inr (List.mem_cons_of_mem _ h)
    · simp only [dictInsert, if_neg hk] at h
      rcases List.mem_cons.mp h with h | h
      · exact Or.inr (h ▸ List.mem_cons_self _ _)
      · rcases ih h with h | h
        · exact Or.inl h
        · exact Or.inr (List.mem_cons_of_mem _ h)

lemma dictInsert_eq_append {κ α : Type} [DecidableEq κ] (k : κ) (v : α)
    (l : List (κ × α)) (h : ∀ p ∈ l, p.1 ≠ k) :
    dictInsert k v l = l ++ [(k, v)] := by
  induction l with
  | nil => rfl
  | cons p rest ih =>
    obtain ⟨k', v'⟩ := p
    have hne : k' ≠ k := h (k', v') (List.mem_cons_self _ _)
    simp only [dictInsert, if_neg hne, List.cons_append, List.cons.injEq, true_and]
    exact ih (fun p hp => h p (List.mem_cons_of_mem _ hp))

/-! The canonical form of `old_to_new_mapping` for distinct keys. -/

/-- The list of (old index, new index) pairs with new indices counted from `k`. -/
def pairsFrom (k : Nat) : List Nat → List (Nat × Nat)
  | [] => []
  | x :: rest => (x, k) :: pairsFrom (k + 1) rest

lemma buildOldToNew_eq (T : List Episode) : ∀ (k : Nat) (acc : List (Nat × Nat)),
    (T.map Episode.episode_index).Nodup →
    (∀ x ∈ T.map Episode.episode_index, ∀ p ∈ acc, p.1 ≠ x) →
    buildOldToNew k acc T = acc ++ pairsFrom k (T.map Episode.episode_index) := by
  induction T with
  | nil =>
    intro k acc _ _
    simp [buildOldToNew, pairsFrom]
  | cons e rest ih =>
    intro k acc hnd hdisj
    simp only [List.map_cons, List.nodup_cons] at hnd
    have hins : dictInsert e.episode_index k acc = acc ++ [(e.episode_index, k)] :=
      dictInsert_eq_append _ _ _
        (fun p hp => hdisj e.episode_index (by simp) p hp)
    have hstep : buildOldToNew k acc (e :: rest)
        = buildOldToNew (k + 1) (dictInsert e.episode_index k acc) rest := rfl
    rw [hstep, hins, ih (k + 1) _ hnd.2 ?hd]
    · simp [pairsFrom]
    case hd =>
      intro x hx p hp
      rcases List.mem_append.mp hp with hp | hp
      · exact hdisj x (List.mem_cons_of_mem _ hx) p hp
      · have hpe : p = (e.episode_index, k) := by simpa using hp
        rw [hpe]
        intro hcon
        have hcon' : e.episode_index = x := hcon
        rw [← hcon'] at hx
        exact hnd.1 hx

lemma oldToNewMapping_eq (S : List Episode)
    (hnd : (S.map Episode.episode_index).Nodup) :
    oldToNewMapping S = pairsFrom 0 (S.map Episode.episode_index) := by
  have := buildOldToNew_eq S 0 [] hnd (fun x _ p hp => absurd hp (List.not_mem_nil p))
  simpa [oldToNewMapping] using this

lemma dictGet_pairsFrom (o : List Nat) : ∀ (k x : Nat),
    dictGet? x (pairsFrom k o) =
      if x ∈ o then some (k + o.indexOf x) else none := by
  induction o with
  | nil =>
    intro k x
    simp [pairsFrom, dictGet?]
  | cons y rest ih =>
    intro k x
    simp only [pairsFrom, dictGet?]
    by_cases hxy : y = x
    · subst hxy
      simp [List.indexOf_cons_self]
    · rw [if_neg hxy, ih (k + 1) x]
      by_cases hx : x ∈ rest
      · rw [if_pos hx, if_pos (List.mem_cons_of_mem y hx),
          List.indexOf_cons_ne rest hxy]
        congr 1
        omega
      · rw [if_neg hx, if_neg ?_]
        intro hmem
        rcases List.mem_cons.mp hmem with h | h
        · exact hxy h.symm
        · exact hx h

/-! The canonical form of the renumbered episode list. -/

/-- Survivors with `episode_index` overwritten by positions counted from `k`. -/
def enumEpisodes (k : Nat) : List Episode → List Episode
  | [] => []
  | e :: rest => { e with episode_index := k } :: enumEpisodes (k + 1) rest

lemma enumEpisodes_length (k : Nat) (S : List Episode) :
    (enumEpisodes k S).length = S.length := by
  induction S generalizing k with
  | nil => rfl
  | cons e rest ih => simp [enumEpisodes, ih]

lemma enumEpisodes_map_idx (k : Nat) (S : List Episode) :
    (enumEpisodes k S).map Episode.episode_index = List.range' k S.length := by
  induction S generalizing k with
  | nil => rfl
  | cons e rest ih =>
    rw [List.length_cons, List.range'_succ]
    simp [enumEpisodes, ih]

lemma enumEpisodes_map_len (k : Nat) (S : List Episode) :
    (enumEpisodes k S).map Episode.length = S.map Episode.length := by
  induction S generalizing k with
  | nil => rfl
  | cons e rest ih => simp [enumEpisodes, ih]

lemma enumEpisodes_map_payload (k : Nat) (S : List Episode) :
    (enumEpisodes k S).map (fun e => (e.length, e.data))
      = S.map (fun e => (e.length, e.data)) := by
  induction S generalizing k with
  | nil => rfl
  | cons e rest ih => simp [enumEpisodes, ih]

lemma lookup_pairsFrom_get (S : List Episode)
    (hnd : (S.map Episode.episode_index).Nodup)
    (j : Nat) (hj : j < S.length) :
    dictGet? (S.get ⟨j, hj⟩).episode_index
      (pairsFrom 0 (S.map Episode.episode_index)) = some j := by
  have hjm : j < (S.map Episode.episode_index).length := by simpa using hj
  have hmem : (S.get ⟨j, hj⟩).episode_index ∈ S.map Episode.episode_index :=
    List.mem_map_of_mem _ (S.get_mem j hj)
  rw [dictGet_pairsFrom, if_pos hmem]
  have hp : (S.map Episode.episode_index).indexOf (S.get ⟨j, hj⟩).episode_index
      < (S.map Episode.episode_index).length := List.indexOf_lt_length.mpr hmem
  have h1 : (S.map Episode.episode_index).get ⟨_, hp⟩
      = (S.get ⟨j, hj⟩).episode_index := List.indexOf_get hp
  have h2 : (S.map Episode.episode_index).get ⟨j, hjm⟩
      = (S.get ⟨j, hj⟩).episode_index := by
    simp [List.get_eq_getElem, List.getElem_map]
  have := (hnd.get_inj_iff).mp (h1.trans h2.symm)
  have hval : (S.map Episode.episode_index).indexOf
      (S.get ⟨j, hj⟩).episode_index = j := congrArg Fin.val this
  rw [hval, Nat.zero_add]

lemma mapEpisodes_eq_enum (otn : List (Nat × Nat)) (S : List Episode) :
    ∀ (k : Nat),
    (∀ j (hj : j < S.length),
      dictGet? (S.get ⟨j, hj⟩).episode_index otn = some (k + j)) →
    mapEpisodes otn S = .ok (enumEpisodes k S) := by
  induction S with
  | nil => intro k _; rfl
  | cons e rest ih =>
    intro k hlook
    have h0 : dictGet? e.episode_index otn = some k := by
      have := hlook 0 (by simp)
      simpa using this
    have hrest : ∀ j (hj : j < rest.length),
        dictGet? (rest.get ⟨j, hj⟩).episode_index otn = some ((k + 1) + j) := by
      intro j hj
      have := hlook (j + 1) (by simpa using Nat.succ_lt_succ hj)
      simp only [List.get_cons_succ] at this
      rw [this]
      congr 1
      omega
    simp only [mapEpisodes, h0, ih (k + 1) hrest, enumEpisodes]
    rfl

lemma mapEpisodes_remaining (S : List Episode)
    (hnd : (S.map Episode.episode_index).Nodup) :
    mapEpisodes (pairsFrom 0 (S.map Episode.episode_index)) S
      = .ok (enumEpisodes 0 S) := by
  refine mapEpisodes_eq_enum _ S 0 ?_
  intro j hj
  rw [lookup_pairsFrom_get S hnd j hj, Nat.zero_add]

/-! Facts about `pairsFrom` used for order preservation and rename bounds. -/

lemma mem_pairsFrom_fst (o : List Nat) : ∀ (k : Nat) (p : Nat × Nat),
    p ∈ pairsFrom k o → p.1 ∈ o := by
  induction o with
  | nil => intro k p hp; simp [pairsFrom] at hp
  | cons x rest ih =>
    intro k p hp
    rcases List.mem_cons.mp hp with rfl | hp
    · exact List.mem_cons_self _ _
    · exact List.mem_cons_of_mem _ (ih (k + 1) p hp)

lemma pairsFrom_fst_pairwise (o : List Nat) : ∀ (k : Nat),
    o.Pairwise (· < ·) →
    (pairsFrom k o).Pairwise (fun p q => p.1 < q.1) := by
  induction o with
  | nil => intro k _; simp [pairsFrom]
  | cons x rest ih =>
    intro k h
    rw [List.pairwise_cons] at h
    rw [pairsFrom, List.pairwise_cons]
    refine ⟨?_, ih (k + 1) h.2⟩
    intro p hp
    exact h.1 p.1 (mem_pairsFrom_fst rest (k + 1) p hp)

lemma pairwise_lt_get_ge (o : List Nat) : ∀ (k : Nat),
    o.Pairwise (· < ·) → (∀ y ∈ o, k ≤ y) →
    ∀ (j : Nat) (hj : j < o.length), k + j ≤ o.get ⟨j, hj⟩ := by
  induction o with
  | nil => intro k _ _ j hj; simp at hj
  | cons x rest ih =>
    intro k hpw hk j hj
    rw [List.pairwise_cons] at hpw
    match j with
    | 0 => simpa using hk x (List.mem_cons_self _ _)
    | j + 1 =>
      have hrest : ∀ y ∈ rest, k + 1 ≤ y := by
        intro y hy
        have h1 : k ≤ x := hk x (List.mem_cons_self _ _)
        exact Nat.succ_le_of_lt (Nat.lt_of_le_of_lt h1 (hpw.1 y hy))
      have hrec := ih (k + 1) hpw.2 hrest j (Nat.lt_of_succ_lt_succ hj)
      have hg : (x :: rest).get ⟨j + 1, hj⟩
          = rest.get ⟨j, Nat.lt_of_succ_lt_succ hj⟩ := rfl
      rw [hg, Nat.add_succ, ← Nat.succ_add]
      exact hrec

lemma dictGet_pairsFrom_le (o : List Nat)
    (hpw : o.Pairwise (· < ·)) (x n : Nat)
    (h : dictGet? x (pairsFrom 0 o) = some n) : n ≤ x := by
  rw [dictGet_pairsFrom] at h
  by_cases hx : x ∈ o
  · rw [if_pos hx] at h
    have hn : n = o.indexOf x := by
      have := Option.some.inj h
      omega
    have hlt : o.indexOf x < o.length := List.indexOf_lt_length.mpr hx
    have hge := pairwise_lt_get_ge o 0 hpw (fun _ _ => Nat.zero_le _)
      (o.indexOf x) hlt
    rw [List.indexOf_get hlt] at hge
    omega
  · rw [if_neg hx] at h
    exact absurd h (by simp)

lemma dictGet_pairsFrom_lt_length (o : List Nat) (x n : Nat)
    (h : dictGet? x (pairsFrom 0 o) = some n) : n < o.length := by
  rw [dictGet_pairsFrom] at h
  by_cases hx : x ∈ o
  · rw [if_pos hx] at h
    have hn : n = o.indexOf x := by
      have := Option.some.inj h
      omega
    rw [hn]
    exact List.indexOf_lt_length.mpr hx
  · rw [if_neg hx] at h
    exact absurd h (by simp)

/-! Helper lemmas about the rename pass. -/

lemma nodup_append_singleton {l : List Nat} {a : Nat} (h : l.Nodup)
    (ha : a ∉ l) : (l ++ [a]).Nodup := by
  rw [List.nodup_append]
  refine ⟨h, List.nodup_singleton a, ?_⟩
  intro x hx hxa
  rw [List.mem_singleton] at hxa
  exact ha (hxa ▸ hx)

lemma renameStep_eq (fs : FS) (x k : Nat)
    (hkF : k ∉ fs.files) (hkD : k ∉ fs.dirs) :
    renameStep fs x k =
      ((if x ∈ fs.files then [Ev.renFile x k] else [])
        ++ (if x ∈ fs.dirs then [Ev.renDir x k] else []),
       .ok { files := if x ∈ fs.files then fs.files.erase x ++ [k] else fs.files,
             dirs := if x ∈ fs.dirs then fs.dirs.erase x ++ [k] else fs.dirs }) := by
  by_cases hxF : x ∈ fs.files <;> by_cases hxD : x ∈ fs.dirs <;>
    simp [renameStep, renameFile, renameDir, hxF, hxD, hkF, hkD]

lemma renamePass_cons_eq (fs : FS) (x : Nat) (ps : List (Nat × Nat)) :
    renamePass fs ((x, x) :: ps) = renamePass fs ps := by
  simp [renamePass]

lemma renamePass_cons_ne (fs : FS) (x n : Nat) (ps : List (Nat × Nat))
    (hne : x ≠ n) (evs : List Ev) (fs1 : FS)
    (hstep : renameStep fs x n = (evs, .ok fs1)) :
    renamePass fs ((x, n) :: ps)
      = (evs ++ (renamePass fs1 ps).1, (renamePass fs1 ps).2) := by
  simp only [renamePass, if_neg hne, hstep]

lemma renamePass_no_collision (o : List Nat) : ∀ (k : Nat) (fs : FS),
    o.Pairwise (· < ·) → (∀ y ∈ o, k ≤ y) →
    fs.files.Nodup → fs.dirs.Nodup →
    (∀ x ∈ fs.files, x < k ∨ x ∈ o) → (∀ x ∈ fs.dirs, x < k ∨ x ∈ o) →
    ∃ fs', (renamePass fs (pairsFrom k o)).2 = .ok fs' := by
  induction o with
  | nil =>
    intro k fs _ _ _ _ _ _
    exact ⟨fs, rfl⟩
  | cons x rest ih =>
    intro k fs hpw hk hnf hnd hF hD
    rw [List.pairwise_cons] at hpw
    have hkx : k ≤ x := hk x (List.mem_cons_self _ _)
    have hrest_lt : ∀ y ∈ rest, x < y := hpw.1
    rw [pairsFrom]
    by_cases hxk : x = k
    · subst hxk
      rw [renamePass_cons_eq]
      refine ih (x + 1) fs hpw.2 ?_ hnf hnd ?_ ?_
      · intro y hy
        exact Nat.succ_le_of_lt (hrest_lt y hy)
      · intro z hz
        rcases hF z hz with h | h
        · exact Or.inl (Nat.lt_succ_of_lt h)
        · rcases List.mem_cons.mp h with rfl | h
          · exact Or.inl (Nat.lt_succ_self _)
          · exact Or.inr h
      · intro z hz
        rcases hD z hz with h | h
        · exact Or.inl (Nat.lt_succ_of_lt h)
        · rcases List.mem_cons.mp h with rfl | h
          · exact Or.inl (Nat.lt_succ_self _)
          · exact Or.inr h
    · have hkltx : k < x := Nat.lt_of_le_of_ne hkx (fun h => hxk h.symm)
      have hkF : k ∉ fs.files := by
        intro hmem
        rcases hF k hmem with h | h
        · exact Nat.lt_irrefl k h
        · rcases List.mem_cons.mp h with h | h
          · exact hxk h.symm
          · exact Nat.lt_irrefl k (Nat.lt_trans hkltx (hrest_lt k h))
      have hkD : k ∉ fs.dirs := by
        intro hmem
        rcases hD k hmem with h | h
        · exact Nat.lt_irrefl k h
        · rcases List.mem_cons.mp h with h | h
          · exact hxk h.symm
          · exact Nat.lt_irrefl k (Nat.lt_trans hkltx (hrest_lt k h))
      have hstep := renameStep_eq fs x k hkF hkD
      rw [renamePass_cons_ne fs x k _ (fun h => hxk (h ▸ rfl)) _ _ hstep]
      have hnf' : (if x ∈ fs.files then fs.files.erase x ++ [k]
          else fs.files).Nodup := by
        by_cases hxF : x ∈ fs.files
        · rw [if_pos hxF]
          refine nodup_append_singleton (hnf.erase x) ?_
          intro hmem
          exact hkF (List.mem_of_mem_erase hmem)
        · rw [if_neg hxF]; exact hnf
      have hnd' : (if x ∈ fs.dirs then fs.dirs.erase x ++ [k]
          else fs.dirs).Nodup := by
        by_cases hxD : x ∈ fs.dirs
        · rw [if_pos hxD]
          refine nodup_append_singleton (hnd.erase x) ?_
          intro hmem
          exact hkD (List.mem_of_mem_erase hmem)
        · rw [if_neg hxD]; exact hnd
      refine ih (k + 1)
        { files := if x ∈ fs.files then fs.files.erase x ++ [k] else fs.files,
          dirs := if x ∈ fs.dirs then fs.dirs.erase x ++ [k] else fs.dirs }
        hpw.2 ?_ hnf' hnd' ?_ ?_
      · intro y hy
        exact Nat.succ_le_of_lt (Nat.lt_of_le_of_lt hkx (hrest_lt y hy))
      · intro z hz
        simp only at hz
        by_cases hxF : x ∈ fs.files
        · rw [if_pos hxF] at hz
          rcases List.mem_append.mp hz with hz | hz
          · have hz' := (hnf.mem_erase_iff).mp hz
            rcases hF z hz'.2 with h | h
            · exact Or.inl (Nat.lt_succ_of_lt h)
            · rcases List.mem_cons.mp h with h | h
              · exact absurd h hz'.1
              · exact Or.inr h
          · rw [List.mem_singleton] at hz
            exact Or.inl (hz ▸ Nat.lt_succ_self k)
        · rw [if_neg hxF] at hz
          rcases hF z hz with h | h
          · exact Or.inl (Nat.lt_succ_of_lt h)
          · rcases List.mem_cons.mp h with h | h
            · exact absurd (h ▸ hz) hxF
            · exact Or.inr h
      · intro z hz
        simp only at hz
        by_cases hxD : x ∈ fs.dirs
        · rw [if_pos hxD] at hz
          rcases List.mem_append.mp hz with hz | hz
          · have hz' := (hnd.mem_erase_iff).mp hz
            rcases hD z hz'.2 with h | h
            · exact Or.inl (Nat.lt_succ_of_lt h)
            · rcases List.mem_cons.mp h with h | h
              · exact absurd h hz'.1
              · exact Or.inr h
          · rw [List.mem_singleton] at hz
            exact Or.inl (hz ▸ Nat.lt_succ_self k)
        · rw [if_neg hxD] at hz
          rcases hD z hz with h | h
          · exact Or.inl (Nat.lt_succ_of_lt h)
          · rcases List.mem_cons.mp h with h | h
            · exact absurd (h ▸ hz) hxD
            · exact Or.inr h

lemma renameStep_events (fs : FS) (o n : Nat) :
    ∀ e ∈ (renameStep fs o n).1, e.isRename = true := by
  intro e he
  by_cases hF : o ∈ fs.files <;> by_cases hD : o ∈ fs.dirs <;>
    by_cases hFn : n ∈ fs.files <;> by_cases hDn : n ∈ fs.dirs <;>
      revert he <;>
      simp [renameStep, renameFile, renameDir, hF, hD, hFn, hDn, Ev.isRename] <;>
      rintro (rfl | rfl) <;> rfl

lemma renamePass_events (ps : List (Nat × Nat)) : ∀ (fs : FS),
    ∀ e ∈ (renamePass fs ps).1, e.isRename = true := by
  induction ps with
  | nil =>
    intro fs e he
    simp [renamePass] at he
  | cons p rest ih =>
    intro fs e he
    obtain ⟨o, n⟩ := p
    by_cases hon : o = n
    · subst hon
      rw [renamePass_cons_eq] at he
      exact ih fs e he
    · revert he
      simp only [renamePass, if_neg hon]
      rcases hstep : renameStep fs o n with ⟨evs, r⟩
      have hevs : ∀ e ∈ evs, e.isRename = true := by
        intro e he
        have := renameStep_events fs o n e
        rw [hstep] at this
        exact this he
      cases r with
      | error err =>
        intro he
        exact hevs e he
      | ok fs1 =>
        intro he
        simp only at he
        rcases List.mem_append.mp he with h | h
        · exact hevs e h
        · exact ih fs1 e h

/-! Helper lemmas about the deletion phase. -/

lemma deletePhase_spec (bl : List Nat) : ∀ (fs : FS),
    fs.files.Nodup → fs.dirs.Nodup →
    ((deletePhase fs bl).1.files.Nodup ∧ (deletePhase fs bl).1.dirs.Nodup)
    ∧ (∀ x, x ∈ (deletePhase fs bl).1.files ↔ x ∈ fs.files ∧ x ∉ bl)
    ∧ (∀ x, x ∈ (deletePhase fs bl).1.dirs ↔ x ∈ fs.dirs ∧ x ∉ bl)
    ∧ (∀ i ∈ (deletePhase fs bl).2.1, i ∈ bl)
    ∧ (∀ e ∈ (deletePhase fs bl).2.2, e.isDelete = true) := by
  induction bl with
  | nil =>
    intro fs hnf hnd
    refine ⟨⟨hnf, hnd⟩, ?_, ?_, ?_, ?_⟩
    · intro x; simp [deletePhase]
    · intro x; simp [deletePhase]
    · intro i hi; simp [deletePhase] at hi
    · intro e he; simp [deletePhase] at he
  | cons i rest ih =>
    intro fs hnf hnd
    by_cases hc : i ∈ fs.files ∨ i ∈ fs.dirs
    · have hnf' : (if i ∈ fs.files then fs.files.erase i else fs.files).Nodup := by
        by_cases h : i ∈ fs.files
        · rw [if_pos h]; exact hnf.erase i
        · rw [if_neg h]; exact hnf
      have hnd' : (if i ∈ fs.dirs then fs.dirs.erase i else fs.dirs).Nodup := by
        by_cases h : i ∈ fs.dirs
        · rw [if_pos h]; exact hnd.erase i
        · rw [if_neg h]; exact hnd
      have hred : deletePhase fs (i :: rest) =
          ((deletePhase { files := if i ∈ fs.files then fs.files.erase i else fs.files,
                          dirs := if i ∈ fs.dirs then fs.dirs.erase i else fs.dirs } rest).1,
           i :: (deletePhase { files := if i ∈ fs.files then fs.files.erase i else fs.files,
                               dirs := if i ∈ fs.dirs then fs.dirs.erase i else fs.dirs } rest).2.1,
           (if i ∈ fs.files then [Ev.delFile i] else [])
             ++ (if i ∈ fs.dirs then [Ev.delDir i] else [])
             ++ (deletePhase { files := if i ∈ fs.files then fs.files.erase i else fs.files,
                               dirs := if i ∈ fs.dirs then fs.dirs.erase i else fs.dirs } rest).2.2) := by
        simp only [deletePhase, if_pos hc]
      obtain ⟨⟨ihf, ihd⟩, ihmf, ihmd, ihdel, ihev⟩ :=
        ih { files := if i ∈ fs.files then fs.files.erase i else fs.files,
             dirs := if i ∈ fs.dirs then fs.dirs.erase i else fs.dirs } hnf' hnd'
      rw [hred]
      refine ⟨⟨ihf, ihd⟩, ?_, ?_, ?_, ?_⟩
      · intro x
        rw [ihmf x]
        constructor
        · rintro ⟨hx, hxr⟩
          by_cases hxi : i ∈ fs.files
          · rw [if_pos hxi] at hx
            have := (hnf.mem_erase_iff).mp hx
            refine ⟨this.2, ?_⟩
            intro hmem
            rcases List.mem_cons.mp hmem with h | h
            · exact this.1 h
            · exact hxr h
          · rw [if_neg hxi] at hx
            refine ⟨hx, ?_⟩
            intro hmem
            rcases List.mem_cons.mp hmem with h | h
            · exact hxi (h ▸ hx)
            · exact hxr h
        · rintro ⟨hx, hxr⟩
          have hxi : x ≠ i := fun h => hxr (h ▸ List.mem_cons_self _ _)
          have hxrest : x ∉ rest := fun h => hxr (List.mem_cons_of_mem _ h)
          refine ⟨?_, hxrest⟩
          by_cases h : i ∈ fs.files
          · rw [if_pos h]
            exact (hnf.mem_erase_iff).mpr ⟨hxi, hx⟩
          · rw [if_neg h]; exact hx
      · intro x
        rw [ihmd x]
        constructor
        · rintro ⟨hx, hxr⟩
          by_cases hxi : i ∈ fs.dirs
          · rw [if_pos hxi] at hx
            have := (hnd.mem_erase_iff).mp hx
            refine ⟨this.2, ?_⟩
            intro hmem
            rcases List.mem_cons.mp hmem with h | h
            · exact this.1 h
            · exact hxr h
          · rw [if_neg hxi] at hx
            refine ⟨hx, ?_⟩
            intro hmem
            rcases List.mem_cons.mp hmem with h | h
            · exact hxi (h ▸ hx)
            · exact hxr h
        · rintro ⟨hx, hxr⟩
          have hxi : x ≠ i := fun h => hxr (h ▸ List.mem_cons_self _ _)
          have hxrest : x ∉ rest := fun h => hxr (List.mem_cons_of_mem _ h)
          refine ⟨?_, hxrest⟩
          by_cases h : i ∈ fs.dirs
          · rw [if_pos h]
            exact (hnd.mem_erase_iff).mpr ⟨hxi, hx⟩
          · rw [if_neg h]; exact hx
      · intro j hj
        rcases List.mem_cons.mp hj with rfl | hj
        · exact List.mem_cons_self _ _
        · exact List.mem_cons_of_mem _ (ihdel j hj)
      · intro e he
        rcases List.mem_append.mp he with he | he
        · rcases List.mem_append.mp he with he | he
          · by_cases h : i ∈ fs.files
            · rw [if_pos h, List.mem_singleton] at he
              subst he; rfl
            · rw [if_neg h] at he
              exact absurd he (List.not_mem_nil e)
          · by_cases h : i ∈ fs.dirs
            · rw [if_pos h, List.mem_singleton] at he
              subst he; rfl
            · rw [if_neg h] at he
              exact absurd he (List.not_mem_nil e)
        · exact ihev e he
    · have hred : deletePhase fs (i :: rest) = deletePhase fs rest := by
        simp only [deletePhase, if_neg hc]
      obtain ⟨⟨ihf, ihd⟩, ihmf, ihmd, ihdel, ihev⟩ := ih fs hnf hnd
      rw [hred]
      have hiF : i ∉ fs.files := fun h => hc (Or.inl h)
      have hiD : i ∉ fs.dirs := fun h => hc (Or.inr h)
      refine ⟨⟨ihf, ihd⟩, ?_, ?_, ?_, ihev⟩
      · intro x
        rw [ihmf x]
        constructor
        · rintro ⟨hx, hxr⟩
          refine ⟨hx, ?_⟩
          intro hmem
          rcases List.mem_cons.mp hmem with h | h
          · exact hiF (h ▸ hx)
          · exact hxr h
        · rintro ⟨hx, hxr⟩
          exact ⟨hx, fun h => hxr (List.mem_cons_of_mem _ h)⟩
      · intro x
        rw [ihmd x]
        constructor
        · rintro ⟨hx, hxr⟩
          refine ⟨hx, ?_⟩
          intro hmem
          rcases List.mem_cons.mp hmem with h | h
          · exact hiD (h ▸ hx)
          · exact hxr h
        · rintro ⟨hx, hxr⟩
          exact ⟨hx, fun h => hxr (List.mem_cons_of_mem _ h)⟩
      · intro j hj
        exact List.mem_cons_of_mem _ (ihdel j hj)

lemma deletePhase_deleted_nil (bl : List Nat) : ∀ (fs : FS),
    (deletePhase fs bl).2.1 = [] →
    (deletePhase fs bl).1 = fs ∧ (deletePhase fs bl).2.2 = [] := by
  induction bl with
  | nil =>
    intro fs _
    exact ⟨rfl, rfl⟩
  | cons i rest ih =>
    intro fs h
    by_cases hc : i ∈ fs.files ∨ i ∈ fs.dirs
    · exfalso
      have : (deletePhase fs (i :: rest)).2.1
          = i :: (deletePhase { files := if i ∈ fs.files then fs.files.erase i else fs.files,
                                dirs := if i ∈ fs.dirs then fs.dirs.erase i else fs.dirs }
              rest).2.1 := by
        simp only [deletePhase, if_pos hc]
      rw [this] at h
      exact List.cons_ne_nil _ _ h
    · have hred : deletePhase fs (i :: rest) = deletePhase fs rest := by
        simp only [deletePhase, if_neg hc]
      rw [hred] at h ⊢
      exact ih fs h

/-! Characterization of the metadata rewrite. -/

lemma renumberMeta_char (m : MetaState) (del : List Nat) (m' : MetaState)
    (hnd : (m.episodes.map Episode.episode_index).Nodup)
    (h : renumberMeta m del = .ok m') :
    m'.blacklist = []
    ∧ m'.episodes = enumEpisodes 0 (remainingEpisodes m del)
    ∧ m'.info = updateInfo m.info (enumEpisodes 0 (remainingEpisodes m del))
    ∧ m'.episode_mapping = buildNewMapping
        (oldToNewMapping (remainingEpisodes m del)) m.episode_mapping []
        (remainingEpisodes m del) := by
  have hnd' := remaining_map_nodup m del hnd
  have hmapE : mapEpisodes (oldToNewMapping (remainingEpisodes m del))
      (remainingEpisodes m del)
      = .ok (enumEpisodes 0 (remainingEpisodes m del)) := by
    rw [oldToNewMapping_eq _ hnd']
    exact mapEpisodes_remaining _ hnd'
  rw [renumberMeta] at h
  rw [hmapE] at h
  cases hms : mapStats (oldToNewMapping (remainingEpisodes m del)) del m.stats with
  | error e =>
    rw [hms] at h
    simp only [Bind.bind, Except.bind] at h
    exact Except.noConfusion h
  | ok sm =>
    rw [hms] at h
    simp only [Bind.bind, Except.bind, Except.ok.injEq] at h
    rw [← h]
    exact ⟨rfl, rfl, rfl, rfl⟩

/-- The shape of every entry the mapping rewrite can produce: it comes from a
remaining episode whose old stringified index had an entry in the old mapping,
is keyed by the stringified new index, and keeps the old value. -/
def MappedEntry (otn : List (Nat × Nat)) (oldMap : List (String × Nat))
    (R : List Episode) (kv : String × Nat) : Prop :=
  ∃ e ∈ R, ∃ n, dictGet? e.episode_index otn = some n ∧
    kv.1 = Nat.repr n ∧ dictGet? (Nat.repr e.episode_index) oldMap = some kv.2

lemma buildNewMapping_mem (otn : List (Nat × Nat)) (oldMap : List (String × Nat))
    (R : List Episode) :
    ∀ (T : List Episode) (acc : List (String × Nat)),
    (∀ e ∈ T, e ∈ R) →
    (∀ kv ∈ acc, MappedEntry otn oldMap R kv) →
    ∀ kv ∈ buildNewMapping otn oldMap acc T, MappedEntry otn oldMap R kv := by
  intro T
  induction T with
  | nil =>
    intro acc _ hacc kv hkv
    exact hacc kv hkv
  | cons e rest ih =>
    intro acc hTR hacc kv hkv
    rw [buildNewMapping] at hkv
    rcases h1 : dictGet? e.episode_index otn with _ | n
    · rw [h1] at hkv
      exact ih acc (fun f hf => hTR f (List.mem_cons_of_mem _ hf)) hacc kv hkv
    · rcases h2 : dictGet? (Nat.repr e.episode_index) oldMap with _ | v
      · rw [h1, h2] at hkv
        exact ih acc (fun f hf => hTR f (List.mem_cons_of_mem _ hf)) hacc kv hkv
      · rw [h1, h2] at hkv
        refine ih (dictInsert (Nat.repr n) v acc)
          (fun f hf => hTR f (List.mem_cons_of_mem _ hf)) ?_ kv hkv
        intro kv' hkv'
        rcases mem_dictInsert _ _ _ _ hkv' with rfl | hkv'
        · exact ⟨e, hTR e (List.mem_cons_self _ _), n, h1, rfl, h2⟩
        · exact hacc kv' hkv'

lemma mem_remaining_map (m : MetaState) (del : List Nat) (x : Nat)
    (hx : x ∈ m.episodes.map Episode.episode_index) (hdel : x ∉ del) :
    x ∈ (remainingEpisodes m del).map Episode.episode_index := by
  rw [remainingEpisodes]
  have hperm := (perm_sortByIdx (m.episodes.filter
    (fun e => decide (e.episode_index ∉ del)))).map Episode.episode_index
  rw [hperm.mem_iff]
  rw [List.mem_map] at hx ⊢
  obtain ⟨e, he, rfl⟩ := hx
  exact ⟨e, List.mem_filter.mpr ⟨he, by simpa using hdel⟩, rfl⟩

/-! Extraction lemmas for the top-level run. -/

lemma liveRun_deleted (ds : Dataset) :
    (liveRun ds).deleted = (deletePhase ds.fs ds.meta.blacklist).2.1 := by
  simp only [liveRun]
  split
  · rfl
  · split
    · rfl
    · split <;> rfl

lemma liveRun_eq_of_del_nil (ds : Dataset)
    (h : (deletePhase ds.fs ds.meta.blacklist).2.1 = []) :
    liveRun ds =
      { error := none,
        events := [Ev.load, Ev.copy] ++ (deletePhase ds.fs ds.meta.blacklist).2.2,
        outDs := some { fs := (deletePhase ds.fs ds.meta.blacklist).1,
                        meta := ds.meta },
        saved := none, deleted := (deletePhase ds.fs ds.meta.blacklist).2.1 } := by
  simp only [liveRun, if_pos h]

lemma liveRun_saved (ds : Dataset) (m' : MetaState)
    (h : (liveRun ds).saved = some m') :
    renumberMeta ds.meta (deletePhase ds.fs ds.meta.blacklist).2.1 = .ok m'
    ∧ (deletePhase ds.fs ds.meta.blacklist).2.1 ≠ [] := by
  by_cases hdel : (deletePhase ds.fs ds.meta.blacklist).2.1 = []
  · rw [liveRun_eq_of_del_nil ds hdel] at h
    exact Option.noConfusion h
  · simp only [liveRun, if_neg hdel] at h
    cases hr : (renamePass (deletePhase ds.fs ds.meta.blacklist).1
        (oldToNewMapping (remainingEpisodes ds.meta
          (deletePhase ds.fs ds.meta.blacklist).2.1))).2 with
    | error e =>
      rw [hr] at h
      exact Option.noConfusion h
    | ok fs2 =>
      rw [hr] at h
      cases hrm : renumberMeta ds.meta (deletePhase ds.fs ds.meta.blacklist).2.1 with
      | error e =>
        rw [hrm] at h
        exact Option.noConfusion h
      | ok m'' =>
        rw [hrm] at h
        have : m'' = m' := Option.some.inj h
        exact ⟨this ▸ rfl, hdel⟩

lemma run_checked_eq (ds : Dataset) (dryRun : Bool) :
    run true false ds dryRun = runChecked ds dryRun := rfl

lemma run_live_eq (ds : Dataset) (hbl : ds.meta.blacklist ≠ []) :
    run true false ds false = liveRun ds := by
  rw [run_checked_eq, runChecked, if_neg hbl]
  rfl

lemma run_saved (ds : Dataset) (m' : MetaState)
    (h : (run true false ds false).saved = some m') :
    renumberMeta ds.meta (run true false ds false).deleted = .ok m'
    ∧ (run true false ds false).deleted ≠ []
    ∧ (run true false ds false).deleted
        = (deletePhase ds.fs ds.meta.blacklist).2.1
    ∧ ds.meta.blacklist ≠ [] := by
  by_cases hbl : ds.meta.blacklist = []
  · rw [run_checked_eq, runChecked, if_pos hbl] at h
    exact Option.noConfusion h
  · have hlive := run_live_eq ds hbl
    rw [hlive] at h ⊢
    obtain ⟨h1, h2⟩ := liveRun_saved ds m' h
    rw [liveRun_deleted]
    exact ⟨h1, h2, rfl, hbl⟩

/-! Classification of the possible errors of the metadata rewrite. -/

lemma mapEpisodes_error (otn : List (Nat × Nat)) :
    ∀ (l : List Episode) (e : RunError),
    mapEpisodes otn l = .error e → e = RunError.keyError := by
  intro l
  induction l with
  | nil =>
    intro e h
    exact Except.noConfusion h
  | cons x rest ih =>
    intro e h
    rw [mapEpisodes] at h
    rcases hg : dictGet? x.episode_index otn with _ | n
    · rw [hg] at h
      simp only [Bind.bind, Except.bind] at h
      exact (Except.error.inj h).symm
    · rw [hg] at h
      cases hr : mapEpisodes otn rest with
      | error e' =>
        rw [hr] at h
        simp only [Bind.bind, Except.bind] at h
        have he : e' = e := Except.error.inj h
        rw [← he]
        exact ih e' hr
      | ok l' =>
        rw [hr] at h
        simp only [Bind.bind, Except.bind] at h
        exact Except.noConfusion h

lemma mapStats_error (otn : List (Nat × Nat)) (del : List Nat) :
    ∀ (l : List Stat) (e : RunError),
    mapStats otn del l = .error e → e = RunError.keyError := by
  intro l
  induction l with
  | nil =>
    intro e h
    exact Except.noConfusion h
  | cons s rest ih =>
    intro e h
    rw [mapStats] at h
    by_cases hmem : s.episode_index ∈ del
    · rw [if_pos hmem] at h
      cases hr : mapStats otn del rest with
      | error e' =>
        rw [hr] at h
        simp only [Bind.bind, Except.bind] at h
        have he : e' = e := Except.error.inj h
        rw [← he]
        exact ih e' hr
      | ok l' =>
        rw [hr] at h
        simp only [Bind.bind, Except.bind] at h
        exact Except.noConfusion h
    · rw [if_neg hmem] at h
      rcases hg : dictGet? s.episode_index otn with _ | n
      · rw [hg] at h
        simp only [Bind.bind, Except.bind] at h
        have he : RunError.keyError = e := Except.error.inj h
        rw [← he]
      · rw [hg] at h
        cases hr : mapStats otn del rest with
        | error e' =>
          rw [hr] at h
          simp only [Bind.bind, Except.bind] at h
          have he : e' = e := Except.error.inj h
          rw [← he]
          exact ih e' hr
        | ok l' =>
          rw [hr] at h
          simp only [Bind.bind, Except.bind] at h
          exact Except.noConfusion h

lemma renumberMeta_error (m : MetaState) (del : List Nat) (e : RunError)
    (h : renumberMeta m del = .error e) : e = RunError.keyError := by
  rw [renumberMeta] at h
  cases hme : mapEpisodes (oldToNewMapping (remainingEpisodes m del))
      (remainingEpisodes m del) with
  | error e' =>
    rw [hme] at h
    simp only [Bind.bind, Except.bind] at h
    have he : e' = e := Except.error.inj h
    rw [← he]
    exact mapEpisodes_error _ _ e' hme
  | ok l =>
    rw [hme] at h
    cases hms : mapStats (oldToNewMapping (remainingEpisodes m del)) del
        m.stats with
    | error e' =>
      rw [hms] at h
      simp only [Bind.bind, Except.bind] at h
      have he : e' = e := Except.error.inj h
      rw [← he]
      exact mapStats_error _ _ _ e' hms
    | ok sm =>
      rw [hms] at h
      simp only [Bind.bind, Except.bind] at h
      exact Except.noConfusion h

lemma isDelete_not_isRename (e : Ev) (h : e.isDelete = true) :
    e.isRename = false := by
  cases e <;> first | rfl | exact Bool.noConfusion h

lemma isRename_not_isDelete (e : Ev) (h : e.isRename = true) :
    e.isDelete = false := by
  cases e <;> first | rfl | exact Bool.noConfusion h

/-! Concrete datasets used for witnesses, counterexamples and bug evidence. -/

/-- A consistent dataset: episodes 0, 1, 2 with artifacts on disk, statistics
for each, mapping entries for episodes 0 and 2, episode 1 blacklisted. -/
def dsW : Dataset :=
  { fs := { files := [0, 1, 2], dirs := [0, 1, 2] },
    meta := { blacklist := [1],
              episodes := [⟨0, 5, 100⟩, ⟨1, 7, 101⟩, ⟨2, 9, 102⟩],
              stats := [⟨0, 200⟩, ⟨1, 201⟩, ⟨2, 202⟩],
              episode_mapping := [("0", 10), ("2", 12)],
              info := some ⟨3, 21, "0:3"⟩ } }

/-- The metadata the engine saves when compacting `dsW`. -/
def dsWsaved : MetaState :=
  { blacklist := [],
    episodes := [⟨0, 5, 100⟩, ⟨1, 9, 102⟩],
    stats := [⟨0, 200⟩, ⟨1, 201⟩, ⟨1, 202⟩],
    episode_mapping := [("0", 10), ("1", 12)],
    info := some ⟨2, 14, "0:2"⟩ }

/-- Episode 1 is blacklisted together with episode 2, but only episode 2 has a
shard file on disk; episode 1 therefore never enters `deleted_episodes`. -/
def dsConservation : Dataset :=
  { fs := { files := [0, 2], dirs := [] },
    meta := { blacklist := [1, 2],
              episodes := [⟨0, 5, 0⟩, ⟨1, 7, 0⟩, ⟨2, 9, 0⟩],
              stats := [], episode_mapping := [],
              info := some ⟨3, 21, "0:3"⟩ } }

/-- Episodes 0, 1, 2 with statistics for each, episode 1 blacklisted with its
shard file present. -/
def dsStats : Dataset :=
  { fs := { files := [0, 1, 2], dirs := [] },
    meta := { blacklist := [1],
              episodes := [⟨0, 5, 0⟩, ⟨1, 7, 0⟩, ⟨2, 9, 0⟩],
              stats := [⟨0, 0⟩, ⟨1, 1⟩, ⟨2, 2⟩], episode_mapping := [],
              info := none } }

/-- Episode 1 is blacklisted but has no artifacts on disk at all. -/
def dsAbsent : Dataset :=
  { fs := { files := [0], dirs := [] },
    meta := { blacklist := [1],
              episodes := [⟨0, 5, 0⟩, ⟨1, 7, 0⟩],
              stats := [], episode_mapping := [], info := none } }

/-- A dataset with an empty persisted blacklist. -/
def dsEmptyBl : Dataset :=
  { fs := { files := [0], dirs := [0] },
    meta := { blacklist := [], episodes := [⟨0, 5, 0⟩], stats := [⟨0, 1⟩],
              episode_mapping := [("0", 3)], info := some ⟨1, 5, "0:1"⟩ } }

/-- C6: for every call with dry_run = true on an existing dataset path and a
non-existing output path, nothing is mutated: the run loads the metadata and
reports, performing no copy, no deletion, no rename and no metadata save. -/
theorem C6_dry_run_pure (ds : Dataset) :
    run true false ds true =
      { error := none, events := [Ev.load], outDs := none, saved := none,
        deleted := [] } := by
  rw [run_checked_eq, runChecked]
  by_cases hbl : ds.meta.blacklist = []
  · rw [if_pos hbl]
    rfl
  · rw [if_neg hbl]
    rfl

/-- C8: whenever the output path already exists (and the dataset path exists),
the run fails with `FileExistsError` before any copy, any filesystem mutation
or any metadata load, for both live and dry runs: the outcome carries the
error, an empty event trace, no output dataset and no saved metadata. -/
theorem C8_output_exists (ds : Dataset) (dryRun : Bool) :
    run true true ds dryRun =
      { error := some RunError.outputExists, events := [], outDs := none,
        saved := none, deleted := [] } := rfl

/-- C9: a live run whose loaded blacklist is empty copies the dataset to the
output path unchanged and returns: the output dataset (filesystem and
metadata, including the still-empty blacklist) equals the source, no deletion,
rename or metadata save occurs. -/
theorem C9_empty_blacklist (ds : Dataset) (hbl : ds.meta.blacklist = []) :
    run true false ds false =
      { error := none, events := [Ev.load, Ev.copy], outDs := some ds,
        saved := none, deleted := [] } := by
  rw [run_checked_eq, runChecked, if_pos hbl]
  rfl

/-- C9 witness: the empty-blacklist run on the concrete dataset `dsEmptyBl`. -/
theorem C9_witness :
    dsEmptyBl.meta.blacklist = []
    ∧ run true false dsEmptyBl false =
        { error := none, events := [Ev.load, Ev.copy], outDs := some dsEmptyBl,
          saved := none, deleted := [] } :=
  ⟨rfl, C9_empty_blacklist dsEmptyBl rfl⟩

/-! Further helpers shared by the claim theorems. -/

lemma run_empty_bl (ds : Dataset) (hbl : ds.meta.blacklist = []) :
    run true false ds false =
      { error := none, events := [Ev.load, Ev.copy], outDs := some ds,
        saved := none, deleted := [] } := by
  rw [run_checked_eq, runChecked, if_pos hbl]
  rfl

lemma indexOf_strict_mono (o : List Nat) (hpw : o.Pairwise (· < ·))
    (i j : Nat) (hi : i ∈ o) (hj : j ∈ o) (hij : i < j) :
    o.indexOf i < o.indexOf j := by
  have hi' : o.indexOf i < o.length := List.indexOf_lt_length.mpr hi
  have hj' : o.indexOf j < o.length := List.indexOf_lt_length.mpr hj
  rcases Nat.lt_trichotomy (o.indexOf i) (o.indexOf j) with h | h | h
  · exact h
  · exfalso
    have := (List.indexOf_inj hi hj).mp h
    omega
  · exfalso
    have hlt := List.pairwise_iff_get.mp hpw ⟨o.indexOf j, hj'⟩ ⟨o.indexOf i, hi'⟩ h
    rw [List.indexOf_get hj', List.indexOf_get hi'] at hlt
    omega

lemma loadcopy_devs_no_rename (devs : List Ev)
    (hdevs : ∀ e ∈ devs, e.isDelete = true) :
    ∀ e ∈ [Ev.load, Ev.copy] ++ devs, e.isRename = false := by
  intro e he
  rcases List.mem_append.mp he with h | h
  · rcases List.mem_cons.mp h with rfl | h
    · rfl
    · rcases List.mem_cons.mp h with rfl | h
      · rfl
      · exact absurd h (List.not_mem_nil e)
  · exact isDelete_not_isRename e (hdevs e h)

/-- C1: for every successful live compaction with a non-empty blacklist on a
dataset with distinct episode indices, the renumbering is an order-preserving
bijection onto the dense range: the saved episode indices are exactly
`0 .. total_episodes - 1` with no gaps or duplicates (`total_episodes`, when
the info record is present, equals their count), and the old-to-new mapping is
strictly monotone on surviving original indices. -/
theorem C1_dense_order_preserving (ds : Dataset) (m' : MetaState)
    (hnd : (ds.meta.episodes.map Episode.episode_index).Nodup)
    (hbl : ds.meta.blacklist ≠ [])
    (hsave : (run true false ds false).saved = some m') :
    m'.episodes.map Episode.episode_index = List.range m'.episodes.length
    ∧ (∀ inf, m'.info = some inf → inf.total_episodes = m'.episodes.length)
    ∧ (∀ i j ni nj,
        dictGet? i (oldToNewMapping (remainingEpisodes ds.meta
          (run true false ds false).deleted)) = some ni →
        dictGet? j (oldToNewMapping (remainingEpisodes ds.meta
          (run true false ds false).deleted)) = some nj →
        i < j → ni < nj) := by
  obtain ⟨hrm, hne, hdeleq, hblx⟩ := run_saved ds m' hsave
  obtain ⟨hb, heps, hinfo, hmap⟩ := renumberMeta_char ds.meta _ m' hnd hrm
  have hnd' := remaining_map_nodup ds.meta (run true false ds false).deleted hnd
  have hpw := remaining_pairwise_lt ds.meta (run true false ds false).deleted hnd
  refine ⟨?_, ?_, ?_⟩
  · rw [heps, enumEpisodes_map_idx, enumEpisodes_length, List.range_eq_range']
  · intro inf hinf
    rw [hinfo] at hinf
    cases hmi : ds.meta.info with
    | none =>
      rw [hmi] at hinf
      simp only [updateInfo] at hinf
      exact Option.noConfusion hinf
    | some i0 =>
      rw [hmi] at hinf
      simp only [updateInfo] at hinf
      rw [← Option.some.inj hinf, heps]
  · intro i j ni nj hgi hgj hij
    rw [oldToNewMapping_eq _ hnd', dictGet_pairsFrom] at hgi hgj
    by_cases hi : i ∈ (remainingEpisodes ds.meta
        (run true false ds false).deleted).map Episode.episode_index
    · by_cases hj : j ∈ (remainingEpisodes ds.meta
          (run true false ds false).deleted).map Episode.episode_index
      · rw [if_pos hi] at hgi
        rw [if_pos hj] at hgj
        have hni := Option.some.inj hgi
        have hnj := Option.some.inj hgj
        have := indexOf_strict_mono _ hpw i j hi hj hij
        omega
      · rw [if_neg hj] at hgj
        exact absurd hgj (by simp)
    · rw [if_neg hi] at hgi
      exact absurd hgi (by simp)

/-- C1 witness: the density and order-preservation theorem instantiated at the
concrete dataset `dsW`. -/
theorem C1_witness :
    ((dsW.meta.episodes.map Episode.episode_index).Nodup
      ∧ dsW.meta.blacklist ≠ []
      ∧ (run true false dsW false).saved = some dsWsaved)
    ∧ (dsWsaved.episodes.map Episode.episode_index
          = List.range dsWsaved.episodes.length
      ∧ (∀ inf, dsWsaved.info = some inf →
          inf.total_episodes = dsWsaved.episodes.length)
      ∧ (∀ i j ni nj,
          dictGet? i (oldToNewMapping (remainingEpisodes dsW.meta
            (run true false dsW false).deleted)) = some ni →
          dictGet? j (oldToNewMapping (remainingEpisodes dsW.meta
            (run true false dsW false).deleted)) = some nj →
          i < j → ni < nj)) :=
  ⟨⟨by decide, by decide, by decide⟩,
   C1_dense_order_preserving dsW dsWsaved (by decide) (by decide) (by decide)⟩

/-- C2 fails as stated: in `dsConservation`, episode 1 is blacklisted but has
no artifacts on disk, so it never enters `deleted_episodes`; the rewritten
`total_frames` is 12 (episodes 0 and 1), while the sum of `length` over
episodes whose index is not in the blacklist is 5 (episode 0 only). -/
theorem C2_counterexample :
    ((run true false dsConservation false).saved.bind MetaState.info).map
        Info.total_frames = some 12
    ∧ ((dsConservation.meta.episodes.filter (fun e =>
        decide (e.episode_index ∉ dsConservation.meta.blacklist))).map
          Episode.length).sum = 5
    ∧ (12 : Nat) ≠ 5 := by decide

/-- C2 amended: after every metadata rewrite, `total_frames` equals the sum of
`length` over the episodes whose original index is not in `deleted_episodes`
(the blacklisted indices whose artifacts existed on disk), and
`total_episodes` equals the count of those episodes. -/
theorem C2_conservation_amended (ds : Dataset) (m' : MetaState) (inf : Info)
    (hnd : (ds.meta.episodes.map Episode.episode_index).Nodup)
    (hsave : (run true false ds false).saved = some m')
    (hinf : m'.info = some inf) :
    inf.total_frames = ((ds.meta.episodes.filter (fun e =>
        decide (e.episode_index ∉ (run true false ds false).deleted))).map
          Episode.length).sum
    ∧ inf.total_episodes = (ds.meta.episodes.filter (fun e =>
        decide (e.episode_index ∉ (run true false ds false).deleted))).length := by
  obtain ⟨hrm, hne, hdeleq, hblx⟩ := run_saved ds m' hsave
  obtain ⟨hb, heps, hinfo, hmap⟩ := renumberMeta_char ds.meta _ m' hnd hrm
  rw [hinfo] at hinf
  have hperm : (remainingEpisodes ds.meta
      (run true false ds false).deleted).Perm
      (ds.meta.episodes.filter (fun e =>
        decide (e.episode_index ∉ (run true false ds false).deleted))) :=
    perm_sortByIdx _
  cases hmi : ds.meta.info with
  | none =>
    rw [hmi] at hinf
    simp only [updateInfo] at hinf
    exact Option.noConfusion hinf
  | some i0 =>
    rw [hmi] at hinf
    simp only [updateInfo] at hinf
    rw [← Option.some.inj hinf]
    dsimp only
    constructor
    · rw [enumEpisodes_map_len]
      exact (hperm.map Episode.length).sum_eq
    · rw [enumEpisodes_length]
      exact hperm.length_eq

/-- C2 witness: the amended conservation theorem instantiated at `dsW`, whose
compaction deletes episode 1 and totals 5 + 9 = 14 frames. -/
theorem C2_witness :
    ((dsW.meta.episodes.map Episode.episode_index).Nodup
      ∧ (run true false dsW false).saved = some dsWsaved
      ∧ dsWsaved.info = some ⟨2, 14, "0:2"⟩)
    ∧ (Info.total_frames ⟨2, 14, "0:2"⟩
        = ((dsW.meta.episodes.filter (fun e =>
            decide (e.episode_index ∉ (run true false dsW false).deleted))).map
              Episode.length).sum
      ∧ Info.total_episodes ⟨2, 14, "0:2"⟩
          = (dsW.meta.episodes.filter (fun e =>
            decide (e.episode_index ∉ (run true false dsW false).deleted))).length) :=
  ⟨⟨by decide, by decide, by decide⟩,
   C2_conservation_amended dsW dsWsaved ⟨2, 14, "0:2"⟩
     (by decide) (by decide) (by decide)⟩

/-- C3 evidence: compacting `dsStats` (episode 1 blacklisted, shard file
present, statistics for episodes 0, 1, 2) keeps the deleted episode's
statistics record: the saved statistics are `[(0, ...), (1, ...), (1, ...)]`,
with the deleted episode 1's record retained under its old index and a
duplicate of index 1, because the final filter compares the unmapped old
indices of deleted episodes against the new episode count. -/
theorem C3_stats_bug :
    (run true false dsStats false).saved.map MetaState.stats
      = some [⟨0, 0⟩, ⟨1, 1⟩, ⟨1, 2⟩]
    ∧ (1 : Nat) ∈ (run true false dsStats false).deleted :=
  ⟨by decide, by decide⟩

/-- C4 fails as stated: in `dsAbsent`, episode 1 is blacklisted but none of
its artifacts exist on disk, so `deleted_episodes` stays empty; the run
completes without error, yet no metadata is saved: the output copy keeps the
original metadata, whose blacklist is still `[1]` and whose episode list still
contains episode 1. -/
theorem C4_counterexample :
    (run true false dsAbsent false).error = none
    ∧ (run true false dsAbsent false).outDs = some dsAbsent
    ∧ dsAbsent.meta.blacklist = [1]
    ∧ (run true false dsAbsent false).saved = none := by decide

/-- C4 amended: in a successful live run with a non-empty blacklist, whenever
metadata is saved, the persisted blacklist is empty and exactly the episodes
whose original index is not in `deleted_episodes` survive in the episode list
(so blacklisted indices without artifacts on disk are reported as absent but
are not removed from the metadata); when no blacklisted index had artifacts,
no metadata is saved and the output copy keeps the original metadata,
including the non-empty blacklist. -/
theorem C4_blacklist_amended (ds : Dataset)
    (hnd : (ds.meta.episodes.map Episode.episode_index).Nodup)
    (hbl : ds.meta.blacklist ≠ [])
    (herr : (run true false ds false).error = none) :
    (∀ m', (run true false ds false).saved = some m' →
      m'.blacklist = []
      ∧ m'.episodes.map (fun e => (e.length, e.data))
          = (remainingEpisodes ds.meta (run true false ds false).deleted).map
              (fun e => (e.length, e.data)))
    ∧ ((run true false ds false).saved = none →
        (run true false ds false).outDs = some ds) := by
  constructor
  · intro m' hsave
    obtain ⟨hrm, hne, hdeleq, hblx⟩ := run_saved ds m' hsave
    obtain ⟨hb, heps, hinfo, hmap⟩ := renumberMeta_char ds.meta _ m' hnd hrm
    refine ⟨hb, ?_⟩
    rw [heps, enumEpisodes_map_payload]
  · intro hnone
    have hlive := run_live_eq ds hbl
    rw [hlive] at hnone herr ⊢
    by_cases hdel : (deletePhase ds.fs ds.meta.blacklist).2.1 = []
    · obtain ⟨hfs, hevs⟩ := deletePhase_deleted_nil _ _ hdel
      rw [liveRun_eq_of_del_nil ds hdel]
      dsimp only
      rw [hfs]
    · exfalso
      simp only [liveRun, if_neg hdel] at hnone herr
      cases hr : (renamePass (deletePhase ds.fs ds.meta.blacklist).1
          (oldToNewMapping (remainingEpisodes ds.meta
            (deletePhase ds.fs ds.meta.blacklist).2.1))).2 with
      | error e =>
        rw [hr] at herr
        exact Option.noConfusion herr
      | ok fs2 =>
        rw [hr] at hnone herr
        cases hrm : renumberMeta ds.meta
            (deletePhase ds.fs ds.meta.blacklist).2.1 with
        | error e =>
          rw [hrm] at herr
          exact Option.noConfusion herr
        | ok m'' =>
          rw [hrm] at hnone
          exact Option.noConfusion hnone

/-- C4 witness: the amended blacklist-clearing theorem instantiated at `dsW`. -/
theorem C4_witness :
    ((dsW.meta.episodes.map Episode.episode_index).Nodup
      ∧ dsW.meta.blacklist ≠ []
      ∧ (run true false dsW false).error = none)
    ∧ ((∀ m', (run true false dsW false).saved = some m' →
        m'.blacklist = []
        ∧ m'.episodes.map (fun e => (e.length, e.data))
            = (remainingEpisodes dsW.meta (run true false dsW false).deleted).map
                (fun e => (e.length, e.data)))
      ∧ ((run true false dsW false).saved = none →
          (run true false dsW false).outDs = some dsW)) :=
  ⟨⟨by decide, by decide, by decide⟩,
   C4_blacklist_amended dsW (by decide) (by decide) (by decide)⟩

/-- C7: after every successful compaction (with distinct episode indices),
every key remaining in the episode mapping is the stringified new index of a
surviving episode that had a mapping entry under its stringified old index,
its value is unchanged, and the new index is a live index below the surviving
episode count: no mapping entry refers to a deleted or gapped index. -/
theorem C7_mapping_integrity (ds : Dataset) (m' : MetaState)
    (hnd : (ds.meta.episodes.map Episode.episode_index).Nodup)
    (hsave : (run true false ds false).saved = some m') :
    ∀ kv ∈ m'.episode_mapping,
      ∃ e ∈ remainingEpisodes ds.meta (run true false ds false).deleted, ∃ n,
        dictGet? e.episode_index (oldToNewMapping (remainingEpisodes ds.meta
          (run true false ds false).deleted)) = some n
        ∧ kv.1 = Nat.repr n
        ∧ n < (remainingEpisodes ds.meta (run true false ds false).deleted).length
        ∧ dictGet? (Nat.repr e.episode_index) ds.meta.episode_mapping
            = some kv.2 := by
  obtain ⟨hrm, hne, hdeleq, hblx⟩ := run_saved ds m' hsave
  obtain ⟨hb, heps, hinfo, hmap⟩ := renumberMeta_char ds.meta _ m' hnd hrm
  intro kv hkv
  rw [hmap] at hkv
  have hme := buildNewMapping_mem
    (oldToNewMapping (remainingEpisodes ds.meta (run true false ds false).deleted))
    ds.meta.episode_mapping
    (remainingEpisodes ds.meta (run true false ds false).deleted)
    (remainingEpisodes ds.meta (run true false ds false).deleted) []
    (fun e he => he) (fun kv' h => absurd h (List.not_mem_nil kv')) kv hkv
  obtain ⟨e, he, n, hgn, hk1, hv⟩ := hme
  refine ⟨e, he, n, hgn, hk1, ?_, hv⟩
  have hnd' := remaining_map_nodup ds.meta (run true false ds false).deleted hnd
  rw [oldToNewMapping_eq _ hnd'] at hgn
  have := dictGet_pairsFrom_lt_length _ _ _ hgn
  simpa using this

/-- C7 witness: the mapping-integrity theorem instantiated at `dsW`, whose
saved mapping is `[("0", 10), ("1", 12)]`. -/
theorem C7_witness :
    ((dsW.meta.episodes.map Episode.episode_index).Nodup
      ∧ (run true false dsW false).saved = some dsWsaved)
    ∧ (∀ kv ∈ dsWsaved.episode_mapping,
      ∃ e ∈ remainingEpisodes dsW.meta (run true false dsW false).deleted, ∃ n,
        dictGet? e.episode_index (oldToNewMapping (remainingEpisodes dsW.meta
          (run true false dsW false).deleted)) = some n
        ∧ kv.1 = Nat.repr n
        ∧ n < (remainingEpisodes dsW.meta (run true false dsW false).deleted).length
        ∧ dictGet? (Nat.repr e.episode_index) dsW.meta.episode_mapping
            = some kv.2) :=
  ⟨⟨by decide, by decide⟩,
   C7_mapping_integrity dsW dsWsaved (by decide) (by decide)⟩

/-- C5: in every live run on a consistent dataset (artifacts belong to the
metadata's episode indices, no duplicates), the event trace splits into a
prefix containing no rename and a suffix containing no deletion — all
deletions are fully applied before any rename begins — and the run never
fails with a rename collision: every performed rename's target path is free
at the moment of the rename. -/
theorem C5_deletions_before_renames (ds : Dataset)
    (hnd : (ds.meta.episodes.map Episode.episode_index).Nodup)
    (hnf : ds.fs.files.Nodup) (hndr : ds.fs.dirs.Nodup)
    (hF : ∀ x ∈ ds.fs.files, x ∈ ds.meta.episodes.map Episode.episode_index)
    (hD : ∀ x ∈ ds.fs.dirs, x ∈ ds.meta.episodes.map Episode.episode_index) :
    (∃ P Q, (run true false ds false).events = P ++ Q
      ∧ (∀ e ∈ P, e.isRename = false) ∧ (∀ e ∈ Q, e.isDelete = false))
    ∧ (run true false ds false).error ≠ some RunError.renameCollision := by
  by_cases hbl : ds.meta.blacklist = []
  · rw [run_empty_bl ds hbl]
    refine ⟨⟨[Ev.load, Ev.copy], [], rfl, ?_, ?_⟩, ?_⟩
    · intro e he
      rcases List.mem_cons.mp he with rfl | he
      · rfl
      · rcases List.mem_cons.mp he with rfl | he
        · rfl
        · exact absurd he (List.not_mem_nil e)
    · intro e he
      exact absurd he (List.not_mem_nil e)
    · intro hcon
      exact Option.noConfusion hcon
  · rw [run_live_eq ds hbl]
    obtain ⟨⟨hnf1, hnd1⟩, hmf, hmd, hdelsub, hevdel⟩ :=
      deletePhase_spec ds.meta.blacklist ds.fs hnf hndr
    by_cases hdel : (deletePhase ds.fs ds.meta.blacklist).2.1 = []
    · rw [liveRun_eq_of_del_nil ds hdel]
      refine ⟨⟨[Ev.load, Ev.copy] ++ (deletePhase ds.fs ds.meta.blacklist).2.2,
        [], (List.append_nil _).symm, loadcopy_devs_no_rename _ hevdel, ?_⟩, ?_⟩
      · intro e he
        exact absurd he (List.not_mem_nil e)
      · intro hcon
        exact Option.noConfusion hcon
    · have hnd' := remaining_map_nodup ds.meta
        (deletePhase ds.fs ds.meta.blacklist).2.1 hnd
      have hpw := remaining_pairwise_lt ds.meta
        (deletePhase ds.fs ds.meta.blacklist).2.1 hnd
      have hinvF : ∀ x ∈ (deletePhase ds.fs ds.meta.blacklist).1.files,
          x < 0 ∨ x ∈ (remainingEpisodes ds.meta
            (deletePhase ds.fs ds.meta.blacklist).2.1).map Episode.episode_index := by
        intro x hx
        obtain ⟨hx1, hx2⟩ := (hmf x).mp hx
        refine Or.inr (mem_remaining_map _ _ _ (hF x hx1) ?_)
        intro hmem
        exact hx2 (hdelsub x hmem)
      have hinvD : ∀ x ∈ (deletePhase ds.fs ds.meta.blacklist).1.dirs,
          x < 0 ∨ x ∈ (remainingEpisodes ds.meta
            (deletePhase ds.fs ds.meta.blacklist).2.1).map Episode.episode_index := by
        intro x hx
        obtain ⟨hx1, hx2⟩ := (hmd x).mp hx
        refine Or.inr (mem_remaining_map _ _ _ (hD x hx1) ?_)
        intro hmem
        exact hx2 (hdelsub x hmem)
      obtain ⟨fs2, hok⟩ := renamePass_no_collision
        ((remainingEpisodes ds.meta
          (deletePhase ds.fs ds.meta.blacklist).2.1).map Episode.episode_index)
        0 (deletePhase ds.fs ds.meta.blacklist).1 hpw
        (fun y _ => Nat.zero_le y) hnf1 hnd1 hinvF hinvD
      rw [← oldToNewMapping_eq _ hnd'] at hok
      have hrevs : ∀ e ∈ (renamePass (deletePhase ds.fs ds.meta.blacklist).1
          (oldToNewMapping (remainingEpisodes ds.meta
            (deletePhase ds.fs ds.meta.blacklist).2.1))).1,
          e.isRename = true := renamePass_events _ _
      simp only [liveRun, if_neg hdel]
      rw [hok]
      cases hrm : renumberMeta ds.meta
          (deletePhase ds.fs ds.meta.blacklist).2.1 with
      | error e =>
        dsimp only
        refine ⟨⟨[Ev.load, Ev.copy] ++ (deletePhase ds.fs ds.meta.blacklist).2.2,
          (renamePass (deletePhase ds.fs ds.meta.blacklist).1
            (oldToNewMapping (remainingEpisodes ds.meta
              (deletePhase ds.fs ds.meta.blacklist).2.1))).1,
          by simp [List.append_assoc], loadcopy_devs_no_rename _ hevdel, ?_⟩, ?_⟩
        · intro ev hev
          exact isRename_not_isDelete ev (hrevs ev hev)
        · intro hcon
          have he := Option.some.inj hcon
          have hke := renumberMeta_error _ _ _ hrm
          rw [hke] at he
          exact RunError.noConfusion he
      | ok m'' =>
        dsimp only
        refine ⟨⟨[Ev.load, Ev.copy] ++ (deletePhase ds.fs ds.meta.blacklist).2.2,
          (renamePass (deletePhase ds.fs ds.meta.blacklist).1
            (oldToNewMapping (remainingEpisodes ds.meta
              (deletePhase ds.fs ds.meta.blacklist).2.1))).1 ++ [Ev.save],
          by simp [List.append_assoc], loadcopy_devs_no_rename _ hevdel, ?_⟩, ?_⟩
        · intro ev hev
          rcases List.mem_append.mp hev with h | h
          · exact isRename_not_isDelete ev (hrevs ev h)
          · rw [List.mem_singleton] at h
            subst h
            rfl
        · intro hcon
          exact Option.noConfusion hcon

/-- C5 witness: the deletions-before-renames theorem instantiated at `dsW`. -/
theorem C5_witness :
    ((dsW.meta.episodes.map Episode.episode_index).Nodup
      ∧ dsW.fs.files.Nodup ∧ dsW.fs.dirs.Nodup
      ∧ (∀ x ∈ dsW.fs.files, x ∈ dsW.meta.episodes.map Episode.episode_index)
      ∧ (∀ x ∈ dsW.fs.dirs, x ∈ dsW.meta.episodes.map Episode.episode_index))
    ∧ ((∃ P Q, (run true false dsW false).events = P ++ Q
        ∧ (∀ e ∈ P, e.isRename = false) ∧ (∀ e ∈ Q, e.isDelete = false))
      ∧ (run true false dsW false).error ≠ some RunError.renameCollision) :=
  ⟨⟨by decide, by decide, by decide, by decide, by decide⟩,
   C5_deletions_before_renames dsW (by decide) (by decide) (by decide)
     (by decide) (by decide)⟩

/-- C10: with distinct episode indices, every entry of the old-to-new mapping
satisfies `new ≤ old` (renumbering only moves episodes to lower slots), the
rename pass iterates the mapping in strictly ascending order of old index,
and on a working filesystem whose artifacts all belong to surviving episodes
the checked rename pass succeeds: each rename's target slot is already vacant
(freed by a deletion or an earlier rename) when the rename is performed. -/
theorem C10_renames_monotone (m : MetaState) (del : List Nat) (fs : FS)
    (hnd : (m.episodes.map Episode.episode_index).Nodup)
    (hnf : fs.files.Nodup) (hndr : fs.dirs.Nodup)
    (hF : ∀ x ∈ fs.files,
      x ∈ (remainingEpisodes m del).map Episode.episode_index)
    (hD : ∀ x ∈ fs.dirs,
      x ∈ (remainingEpisodes m del).map Episode.episode_index) :
    (∀ o n, dictGet? o (oldToNewMapping (remainingEpisodes m del)) = some n →
      n ≤ o)
    ∧ (oldToNewMapping (remainingEpisodes m del)).Pairwise
        (fun p q => p.1 < q.1)
    ∧ ∃ fs', (renamePass fs (oldToNewMapping (remainingEpisodes m del))).2
        = .ok fs' := by
  have hnd' := remaining_map_nodup m del hnd
  have hpw := remaining_pairwise_lt m del hnd
  rw [oldToNewMapping_eq _ hnd']
  refine ⟨?_, ?_, ?_⟩
  · intro o n h
    exact dictGet_pairsFrom_le _ hpw o n h
  · exact pairsFrom_fst_pairwise _ 0 hpw
  · exact renamePass_no_collision _ 0 fs hpw (fun y _ => Nat.zero_le y)
      hnf hndr (fun x hx => Or.inr (hF x hx)) (fun x hx => Or.inr (hD x hx))

/-- C10 witness: the rename-monotonicity theorem instantiated at the
post-deletion state of `dsW`: metadata of `dsW`, deleted episode 1, working
filesystem holding episodes 0 and 2. -/
theorem C10_witness :
    ((dsW.meta.episodes.map Episode.episode_index).Nodup
      ∧ (FS.mk [0, 2] [0, 2]).files.Nodup ∧ (FS.mk [0, 2] [0, 2]).dirs.Nodup
      ∧ (∀ x ∈ (FS.mk [0, 2] [0, 2]).files,
          x ∈ (remainingEpisodes dsW.meta [1]).map Episode.episode_index)
      ∧ (∀ x ∈ (FS.mk [0, 2] [0, 2]).dirs,
          x ∈ (remainingEpisodes dsW.meta [1]).map Episode.episode_index))
    ∧ ((∀ o n,
        dictGet? o (oldToNewMapping (remainingEpisodes dsW.meta [1])) = some n →
          n ≤ o)
      ∧ (oldToNewMapping (remainingEpisodes dsW.meta [1])).Pairwise
          (fun p q => p.1 < q.1)
      ∧ ∃ fs', (renamePass (FS.mk [0, 2] [0, 2])
          (oldToNewMapping (remainingEpisodes dsW.meta [1]))).2 = .ok fs') :=
  ⟨⟨by decide, by decide, by decide, by decide, by decide⟩,
   C10_renames_monotone dsW.meta [1] (FS.mk [0, 2] [0, 2]) (by decide)
     (by decide) (by decide) (by decide) (by decide)⟩
